import Mathlib

/-!
Verification of the burn-in parameter-generation notebook
(`burn_in_parameter_generation.ipynb`) of the abfe-benchmark repository.

The development shallowly embeds the notebook's pure text processing —
the post-processing patcher that renames water labels in coordinate and
topology text and inserts a water topology block — together with its
fixed system/ligand manifests, the structure-combination step, and the
solvation driver's straight-line sequence of external tool invocations.

Python's `str.replace` (leftmost, non-overlapping replacement of every
occurrence) is modelled by `pyReplace`; substring occurrences are
counted by `countOcc`, which counts every start position at which the
pattern occurs.  Text is modelled as `List Char`.
-/

namespace AbfeBench

/-- Fuel-indexed worker for `pyReplace`.  At each position it either
replaces a match of `p` by `r` and skips past the match, or keeps the
head character; the fuel decreases at every step, and `pyReplace`
supplies enough fuel to process the whole string. -/
def replFuel (p r : List Char) : Nat → List Char → List Char
  | _, [] => []
  | 0, s => s
  | Nat.succ n, c :: cs =>
    if p.isPrefixOf (c :: cs) && !p.isEmpty
    then r ++ replFuel p r n (cs.drop (p.length - 1))
    else c :: replFuel p r n cs

/-- Model of Python's `s.replace(p, r)` for a non-empty pattern `p`:
scan left to right, replacing each non-overlapping occurrence of `p`
by `r`.  (For the empty pattern, which the notebook never uses, this
model returns `s` unchanged.) -/
def pyReplace (s p r : List Char) : List Char := replFuel p r s.length s

/-- Number of start positions at which `p` occurs in a string
(occurrences may overlap). -/
def countOcc (p : List Char) : List Char → Nat
  | [] => 0
  | c :: cs => (if p.isPrefixOf (c :: cs) then 1 else 0) + countOcc p cs

/- Literal substitution patterns of the coordinate-file patch
(`burn_in_parameter_generation.ipynb`, solvation cell). -/

/-- Coordinate pattern `'HOH      O'`. -/
def patHohO : List Char := "HOH      O".toList

/-- Coordinate replacement `'SOL     OW'`. -/
def repSolOW : List Char := "SOL     OW".toList

/-- Coordinate pattern `'HOH     H1'`. -/
def patHohH1 : List Char := "HOH     H1".toList

/-- Coordinate replacement `'SOL    HW1'`. -/
def repSolHW1 : List Char := "SOL    HW1".toList

/-- Coordinate pattern `'HOH     H2'`. -/
def patHohH2 : List Char := "HOH     H2".toList

/-- Coordinate replacement `'SOL    HW2'`. -/
def repSolHW2 : List Char := "SOL    HW2".toList

/-- Coordinate-file patch: the three successive `str.replace` calls the
notebook applies to `complex.gro` / `ligand.gro` text. -/
def patchCoord (filedata : List Char) : List Char :=
  pyReplace (pyReplace (pyReplace filedata patHohO repSolOW)
    patHohH1 repSolHW1) patHohH2 repSolHW2

/-- Water-presence check of the topology patch.  The notebook writes
`for line in filedata: if line.startswith("SOL")`, but `filedata` is a
string, so the loop variable ranges over single characters. -/
def contains_SOL (filedata : List Char) : Bool :=
  filedata.any (fun line => "SOL".toList.isPrefixOf [line])

/-- Topology rename pattern `'1         O1      1    HOH      O'`. -/
def topPatO : List Char := "1         O1      1    HOH      O".toList

/-- Topology rename replacement `'1         O1      1    SOL     OW'`. -/
def topRepO : List Char := "1         O1      1    SOL     OW".toList

/-- Topology rename pattern `'2         H1      1    HOH     H1'`. -/
def topPatH1 : List Char := "2         H1      1    HOH     H1".toList

/-- Topology rename replacement `'2         H1      1    SOL    HW1'`. -/
def topRepH1 : List Char := "2         H1      1    SOL    HW1".toList

/-- Topology rename pattern `'3         H1      1    HOH     H2'`. -/
def topPatH2 : List Char := "3         H1      1    HOH     H2".toList

/-- Topology rename replacement `'3         H1      1    SOL    HW2 '`
(with the trailing blank exactly as in the notebook). -/
def topRepH2 : List Char := "3         H1      1    SOL    HW2 ".toList

/-- Residue label `'HOH'`. -/
def hohWord : List Char := "HOH".toList

/-- Residue label `'SOL'`. -/
def solWord : List Char := "SOL".toList

/-- Rename branch of the topology patch (taken when `contains_SOL` is
true): the four successive `str.replace` calls. -/
def renameTopSOL (filedata : List Char) : List Char :=
  pyReplace (pyReplace (pyReplace (pyReplace filedata topPatO topRepO)
    topPatH1 topRepH1) topPatH2 topRepH2) hohWord solWord

/-- Anchor string `'[ system ]'` at which the water block is inserted. -/
def sysAnchor : List Char := "[ system ]".toList

/-- Atom line of the inserted water block declaring atom `OW`. -/
def atomLineOW : List Char :=
  "    1         O1      1    SOL     OW      1 -0.83400000  15.999430   ; qtot -0.834000\n".toList

/-- Atom line of the inserted water block declaring atom `HW1`. -/
def atomLineHW1 : List Char :=
  "    2         H1      1    SOL    HW1      2 0.41700000   1.007947   ; qtot -0.417000\n".toList

/-- Atom line of the inserted water block declaring atom `HW2`. -/
def atomLineHW2 : List Char :=
  "    3         H1      1    SOL    HW2       3 0.41700000   1.007947   ; qtot 0.000000\n".toList

/-- Text of the inserted water block before its three atom lines. -/
def blkHeader : List Char :=
  ("\n[ moleculetype ]\n; Name            nrexcl\nSOL          3\n\n[ atoms ]\n" ++
   ";   nr       type  resnr residue  atom   cgnr    charge       mass  typeB    chargeB      massB\n" ++
   "; residue    1 SOL rtp SOL q 0.0\n").toList

/-- Text of the inserted water block after its three atom lines, up to
(but not including) the final `'[ system ]'` anchor. -/
def blkFooter : List Char :=
  ("\n#ifdef FLEXIBLE\n\n[ bonds ]\n;    ai     aj funct         c0         c1         c2         c3\n" ++
   "      2      1     1   0.09572 462750.400000\n      3      1     1   0.09572 462750.400000\n\n" ++
   "[ angles ]\n;    ai     aj     ak funct         c0         c1         c2         c3\n" ++
   "      2      1      3     1   104.5200000 836.800000\n\n\n#else\n\n" ++
   "[ settles ]\n; i     funct   doh     dhh\n1     1   0.09572000   0.15139007\n\n#endif\n\n" ++
   "[ exclusions ]\n1  2  3\n2  1  3\n3  1  2\n\n").toList

/-- Inserted water block without its trailing `'[ system ]'` anchor. -/
def solBlockPre : List Char :=
  blkHeader ++ atomLineOW ++ atomLineHW1 ++ atomLineHW2 ++ blkFooter

/-- Full replacement text of the topology patch's block insertion: the
triple-quoted string of the notebook, which ends with `'[ system ]'`. -/
def solBlock : List Char := solBlockPre ++ sysAnchor

/-- Topology-file patch: rename existing water entries when
`contains_SOL` holds, otherwise insert the water block in place of
every `'[ system ]'` anchor. -/
def patchTop (filedata : List Char) : List Char :=
  if contains_SOL filedata then renameTopSOL filedata
  else pyReplace filedata sysAnchor solBlock

/- Fixed manifests of the two phases. -/

/-- Protein list of the parameter-generation phase.  In the committed
notebook only `'thrombin'` is active; the other five entries are
commented out. -/
def protein_list_params : List String := ["thrombin"]

/-- Protein list of the solvation phase (all six systems). -/
def protein_list_solv : List String :=
  ["thrombin", "cmet", "cyclod", "jnk1", "p38", "brd4"]

/-- Ligand file names of a system: three for `cyclod`, two otherwise. -/
def ligand_filenames (p : String) : List String :=
  if p = "cyclod" then ["ligand1", "ligand2", "ligand3"]
  else ["ligand1", "ligand2"]

/-- Modelled from the spec: a ParmEd `Structure` (not part of this
repository; the notebook calls the external ParmEd library).  Per the
spec's data model, a parameterized structure is an object holding atoms
and force-field terms; here it is abstracted as the list of atoms it
holds. -/
def combineStructures {α : Type*} (a b : List α) : List α := a ++ b

/-- Complex construction of the parameter-generation loop: protein,
then ligand, then — exactly when the system's `water.pdb` exists — the
water structure. -/
def buildComplex {α : Type*} (hasWaterFile : Bool)
    (protein ligand water : List α) : List α :=
  if hasWaterFile then
    combineStructures (combineStructures protein ligand) water
  else combineStructures protein ligand

/-- An external GROMACS invocation of the solvation driver: the tool
name, its argument list as in the notebook, and the files the stage
writes. -/
structure Stage where
  tool : String
  args : List String
  outputs : List String
deriving DecidableEq

/-- Complex-solvation stages, in the notebook's order. -/
def complexStages : List Stage :=
  [{ tool := "editconf",
     args := ["-f", "complex.gro", "-o", "editconf.gro", "-bt", "cubic", "-d", "1.0", "-c"],
     outputs := ["editconf.gro"] },
   { tool := "solvate",
     args := ["-cp", "editconf.gro", "-o", "complex_solvated.gro", "-cs", "spc216", "-p", "complex.top"],
     outputs := ["complex_solvated.gro", "complex.top"] },
   { tool := "grompp",
     args := ["-c", "complex_solvated.gro", "-f", "genion.mdp", "-p", "complex.top", "-o", "for_genion.tpr", "-maxwarn", "3"],
     outputs := ["for_genion.tpr"] },
   { tool := "genion",
     args := ["-s", "for_genion.tpr", "-o", "complex_ions.gro", "-p", "complex.top", "-conc", "0.15", "-neutral"],
     outputs := ["complex_ions.gro", "complex.top"] }]

/-- Ligand-solvation stages, in the notebook's order. -/
def ligandStages : List Stage :=
  [{ tool := "editconf",
     args := ["-f", "ligand.gro", "-o", "ligand_editconf.gro", "-bt", "cubic", "-d", "1.0", "-c"],
     outputs := ["ligand_editconf.gro"] },
   { tool := "solvate",
     args := ["-cp", "ligand_editconf.gro", "-o", "ligand_solvated.gro", "-cs", "spc216", "-p", "ligand.top"],
     outputs := ["ligand_solvated.gro", "ligand.top"] },
   { tool := "grompp",
     args := ["-c", "ligand_solvated.gro", "-f", "genion.mdp", "-p", "ligand.top", "-o", "for_genion.tpr", "-maxwarn", "3"],
     outputs := ["for_genion.tpr"] },
   { tool := "genion",
     args := ["-s", "for_genion.tpr", "-o", "ligand_ions.gro", "-p", "ligand.top", "-conc", "0.15", "-neutral"],
     outputs := ["ligand_ions.gro", "ligand.top"] }]

/-- All eight stages run for one (system, ligand) pair: the four
complex stages, then the four ligand stages. -/
def solvationStages : List Stage := complexStages ++ ligandStages

/-- Execution of the solvation driver, given the exit code each stage's
subprocess would return.  The notebook stores each stage's stdout and
stderr and moves on; no exit code is ever inspected, so the run is the
plain traversal of `solvationStages`. -/
def runSolvation (exec : Stage → Int) : List (Stage × Int) :=
  solvationStages.map (fun st => (st, exec st))

/-- Files written by the first `k` stages of a stage list. -/
def producedBy (stages : List Stage) (k : Nat) : List String :=
  ((stages.take k).map Stage.outputs).flatten

/-- Digit value of a decimal digit character. -/
def digitVal (c : Char) : Nat := c.toNat - 48

/-- Natural number denoted by a digit string. -/
def parseDigits (s : List Char) : Nat :=
  s.foldl (fun a c => 10 * a + digitVal c) 0

/-- Unsigned fixed-point decimal: all digits as an integer, together
with the number of digits after the decimal point. -/
def parseUnsignedScaled (s : List Char) : Nat × Nat :=
  let ip := s.takeWhile (fun c => c != '.')
  let fp := (s.dropWhile (fun c => c != '.')).drop 1
  (parseDigits (ip ++ fp), fp.length)

/-- Signed fixed-point decimal as a scaled integer. -/
def parseDecScaled (s : List Char) : Int × Nat :=
  match s with
  | '-' :: t => ((-(parseUnsignedScaled t).1 : Int), (parseUnsignedScaled t).2)
  | _ => (((parseUnsignedScaled s).1 : Int), (parseUnsignedScaled s).2)

/-- Rational value of a signed fixed-point decimal string. -/
def parseDecQ (s : List Char) : ℚ :=
  ((parseDecScaled s).1 : ℚ) / 10 ^ (parseDecScaled s).2

/-- Charge field of the `OW` atom line. -/
def chargeOWStr : List Char := "-0.83400000".toList

/-- Charge field of the `HW1` atom line. -/
def chargeHW1Str : List Char := "0.41700000".toList

/-- Charge field of the `HW2` atom line. -/
def chargeHW2Str : List Char := "0.41700000".toList

/-- Newline profile of a text: which positions hold a line break.  Two
texts with the same newline profile have the same length, the same line
structure, and hence the same fixed-column alignment. -/
def lineShape (s : List Char) : List Bool := s.map (fun c => c == '\n')

/-- Check that no occurrence of `w` can begin inside `r`, whatever text
follows `r`: no suffix of `r` has `w` as a prefix, and no suffix of `r`
is itself a prefix of `w`. -/
def noStartB (w r : List Char) : Bool :=
  (List.range r.length).all
    (fun j => !(w.isPrefixOf (r.drop j)) && !((r.drop j).isPrefixOf w))

/-- Check that no proper suffix of `b` shorter than `w` is a prefix of
`w`; this rules out occurrences of `w` that straddle the end of `b`. -/
def noSpanB (w b : List Char) : Bool :=
  (List.range (w.length - 1)).all
    (fun k => !((b.drop (b.length - (k + 1))).isPrefixOf w))

/-- Opening of a sample topology text: a line beginning with `SOL`
followed by an `HOH`-labelled atom entry. -/
def demoPre : List Char :=
  "SOL          3\n    1         O1      1    HOH      O\n".toList

/-- Closing of the sample topology text, with another `HOH` label. -/
def demoPost : List Char := "\nHOH 1\n".toList

/-- Sample topology text in which water entries are present: it has a
line beginning with `SOL`, `HOH`-labelled entries, and one
`'[ system ]'` anchor. -/
def demoTop : List Char := demoPre ++ sysAnchor ++ demoPost

/-- Sample topology text consisting of a single `'[ system ]'` anchor
line. -/
def cexTop : List Char := sysAnchor

/-- Sample topology text with no water entries and one anchor. -/
def sampleTop : List Char := "; protein topology\n[ system ]\nComplex".toList

/-- Sample coordinate text containing none of the substitution
patterns. -/
def sampleCoord : List Char := "1UYD   42\n".toList

/- Basic facts about `countOcc`. -/

theorem countOcc_nil (p : List Char) : countOcc p [] = 0 := rfl

theorem countOcc_cons (p : List Char) (c : Char) (cs : List Char) :
    countOcc p (c :: cs)
      = (if p.isPrefixOf (c :: cs) then 1 else 0) + countOcc p cs := rfl

theorem countOcc_tail_le (p : List Char) (c : Char) (cs : List Char) :
    countOcc p cs ≤ countOcc p (c :: cs) := by
  rw [countOcc_cons]
  exact Nat.le_add_left _ _

theorem countOcc_drop_le (p : List Char) (k : Nat) (s : List Char) :
    countOcc p (s.drop k) ≤ countOcc p s := by
  induction k generalizing s with
  | zero => simp
  | succ n ih =>
    cases s with
    | nil => simp
    | cons c cs =>
      rw [List.drop_succ_cons]
      exact le_trans (ih cs) (countOcc_tail_le p c cs)

theorem countOcc_pos_of_head (p : List Char) (c : Char) (cs : List Char)
    (h : p.isPrefixOf (c :: cs) = true) : 0 < countOcc p (c :: cs) := by
  rw [countOcc_cons, h]
  simp

/- Prefix helpers. -/

theorem prefixAppendCases {p a b : List Char} (h : p <+: a ++ b) :
    p <+: a ∨ a <+: p := by
  induction a generalizing p with
  | nil => exact Or.inr (List.nil_prefix)
  | cons x xs ih =>
    cases p with
    | nil => exact Or.inl (List.nil_prefix)
    | cons y ys =>
      rw [List.cons_append, List.cons_prefix_cons] at h
      rcases ih h.2 with h1 | h2
      · exact Or.inl (List.cons_prefix_cons.mpr ⟨h.1, h1⟩)
      · exact Or.inr (List.cons_prefix_cons.mpr ⟨h.1.symm, h2⟩)

theorem prefix_append_of_le {w a : List Char} (b : List Char)
    (hlen : w.length ≤ a.length) : w <+: a ++ b ↔ w <+: a := by
  constructor
  · intro h
    rcases prefixAppendCases h with h1 | h2
    · exact h1
    · have hl : a.length = w.length := le_antisymm h2.length_le hlen
      have haw : a = w := by
        have := List.prefix_iff_eq_take.mp h2
        rwa [hl, List.take_length] at this
      rw [haw]
  · intro h
    exact h.trans (List.prefix_append a b)

theorem eq_append_drop_of_isPrefixOf {w s : List Char}
    (h : w.isPrefixOf s = true) : s = w ++ s.drop w.length := by
  have hp : w <+: s := List.isPrefixOf_iff_prefix.mp h
  rw [List.prefix_iff_eq_take] at hp
  conv_lhs => rw [← List.take_append_drop w.length s, ← hp]

/- Bridges from the boolean side-condition checks. -/

theorem noStartB_spec {w r : List Char} (h : noStartB w r = true)
    (t : List Char) {j : Nat} (hj : j < r.length) :
    ¬ w <+: (r.drop j ++ t) := by
  intro hcon
  have hall := List.all_eq_true.mp h j (List.mem_range.mpr hj)
  rw [Bool.and_eq_true] at hall
  rcases prefixAppendCases hcon with h1 | h2
  · rw [← List.isPrefixOf_iff_prefix] at h1
    simp [h1] at hall
  · rw [← List.isPrefixOf_iff_prefix] at h2
    simp [h2] at hall

/- Occurrences cannot start inside an inserted replacement that
satisfies `noStartB`. -/

theorem countOcc_append_left_zero {w t : List Char} :
    ∀ {r : List Char}, (∀ j, j < r.length → ¬ w <+: (r.drop j ++ t)) →
    countOcc w (r ++ t) = countOcc w t := by
  intro r
  induction r with
  | nil => intro _; rfl
  | cons c r' ih =>
    intro h
    have h0 : ¬ w <+: c :: (r' ++ t) := by
      simpa using h 0 (by simp)
    have hb : w.isPrefixOf (c :: (r' ++ t)) = false := by
      rw [← Bool.not_eq_true, List.isPrefixOf_iff_prefix]
      exact h0
    rw [List.cons_append, countOcc_cons, hb]
    simp only [Bool.false_eq_true, if_false, Nat.zero_add]
    exact ih (fun j hj => by
      have := h (j + 1) (by simpa using Nat.succ_lt_succ hj)
      simpa using this)

/- A string that avoids the first character of the replacement cannot
become a prefix of the replacement output unless it was already a
prefix of the input: matches insert `r`, whose head the string avoids,
and non-matches keep the input's head character. -/

theorem prefix_of_replFuel {p r : List Char} {rh : Char}
    (hre : r.head? = some rh) :
    ∀ n s q, rh ∉ q → s.length ≤ n → q <+: replFuel p r n s → q <+: s := by
  intro n
  induction n with
  | zero =>
    intro s q hq hs hpre
    cases s with
    | nil => simpa [replFuel] using hpre
    | cons c cs => simp at hs
  | succ n ih =>
    intro s q hq hs hpre
    cases s with
    | nil => simpa [replFuel] using hpre
    | cons c cs =>
      have hs' : cs.length ≤ n := by simp at hs; omega
      simp only [replFuel] at hpre
      by_cases hcond : (p.isPrefixOf (c :: cs) && !p.isEmpty) = true
      · rw [if_pos hcond] at hpre
        cases q with
        | nil => exact List.nil_prefix
        | cons qh qt =>
          cases r with
          | nil => simp at hre
          | cons x xs =>
            have hx : x = rh := by simpa using hre
            rw [List.cons_append, List.cons_prefix_cons] at hpre
            exact absurd (List.mem_cons.mpr (Or.inl (hpre.1.trans hx).symm)) hq
      · rw [if_neg hcond] at hpre
        cases q with
        | nil => exact List.nil_prefix
        | cons qh qt =>
          rw [List.cons_prefix_cons] at hpre ⊢
          refine ⟨hpre.1, ih cs qt ?_ hs' hpre.2⟩
          exact fun hmem => hq (List.mem_cons_of_mem _ hmem)

/- When the pattern does not occur, replacement is the identity. -/

theorem replFuel_eq_of_countOcc_zero {p r : List Char} :
    ∀ n s, s.length ≤ n → countOcc p s = 0 → replFuel p r n s = s := by
  intro n
  induction n with
  | zero =>
    intro s hs h0
    cases s with
    | nil => simp [replFuel]
    | cons c cs => simp at hs
  | succ n ih =>
    intro s hs h0
    cases s with
    | nil => simp [replFuel]
    | cons c cs =>
      have hs' : cs.length ≤ n := by simp at hs; omega
      have hhead : p.isPrefixOf (c :: cs) = false := by
        by_contra hb
        have hbt : p.isPrefixOf (c :: cs) = true := by
          revert hb; cases p.isPrefixOf (c :: cs) <;> simp
        have := countOcc_pos_of_head p c cs hbt
        omega
      rw [countOcc_cons, hhead] at h0
      simp only [Bool.false_eq_true, if_false, Nat.zero_add] at h0
      simp only [replFuel, hhead, Bool.false_and, Bool.false_eq_true, if_false]
      rw [ih cs hs' h0]

theorem pyReplace_eq_of_countOcc_zero (s p r : List Char)
    (h0 : countOcc p s = 0) : pyReplace s p r = s :=
  replFuel_eq_of_countOcc_zero s.length s le_rfl h0

/- Replacement creates no occurrence of a word `w` when no occurrence
of `w` can start inside the replacement text and `w` avoids the
replacement text's first character.  The word is either the scanned
pattern itself or a word that did not occur in the input. -/

theorem countOcc_replFuel_zero {p r w : List Char} {rh : Char}
    (hre : r.head? = some rh) (hw : w ≠ [])
    (hns : noStartB w r = true) (hcross : rh ∉ w) :
    ∀ n s, s.length ≤ n → (countOcc w s = 0 ∨ w = p) →
    countOcc w (replFuel p r n s) = 0 := by
  intro n
  induction n with
  | zero =>
    intro s hs hd
    cases s with
    | nil => simp [replFuel, countOcc_nil]
    | cons c cs => simp at hs
  | succ n ih =>
    intro s hs hd
    cases s with
    | nil => simp [replFuel, countOcc_nil]
    | cons c cs =>
      have hs' : cs.length ≤ n := by simp at hs; omega
      by_cases hcond : (p.isPrefixOf (c :: cs) && !p.isEmpty) = true
      · simp only [replFuel]
        rw [if_pos hcond]
        rw [countOcc_append_left_zero (fun j hj => noStartB_spec hns _ hj)]
        apply ih _ (by rw [List.length_drop]; omega)
        rcases hd with h0 | hwp
        · left
          have h1 : countOcc w (cs.drop (p.length - 1)) ≤ countOcc w cs :=
            countOcc_drop_le w _ cs
          have h2 := countOcc_tail_le w c cs
          omega
        · exact Or.inr hwp
      · simp only [replFuel]
        rw [if_neg hcond]
        have hd' : countOcc w cs = 0 ∨ w = p := by
          rcases hd with h0 | hwp
          · left; have := countOcc_tail_le w c cs; omega
          · exact Or.inr hwp
        have htail := ih cs hs' hd'
        rw [countOcc_cons]
        have hhead : w.isPrefixOf (c :: replFuel p r n cs) = false := by
          by_contra hb
          have hbt : w.isPrefixOf (c :: replFuel p r n cs) = true := by
            revert hb; cases w.isPrefixOf (c :: replFuel p r n cs) <;> simp
          have hwpre : w <+: c :: replFuel p r n cs :=
            List.isPrefixOf_iff_prefix.mp hbt
          cases w with
          | nil => exact hw rfl
          | cons wh wt =>
            rw [List.cons_prefix_cons] at hwpre
            have hwt : wt <+: cs :=
              prefix_of_replFuel hre n cs wt
                (fun hmem => hcross (List.mem_cons_of_mem _ hmem)) hs' hwpre.2
            have hwcs : (wh :: wt) <+: (c :: cs) :=
              List.cons_prefix_cons.mpr ⟨hwpre.1, hwt⟩
            rcases hd with h0 | hwp
            · have := countOcc_pos_of_head (wh :: wt) c cs
                (List.isPrefixOf_iff_prefix.mpr hwcs)
              omega
            · apply hcond
              rw [Bool.and_eq_true, ← hwp]
              exact ⟨List.isPrefixOf_iff_prefix.mpr hwcs, by simp⟩
        rw [hhead]
        simpa using htail

/- Further structural helpers. -/

theorem lineShape_append (a b : List Char) :
    lineShape (a ++ b) = lineShape a ++ lineShape b := by
  simp [lineShape]

theorem replFuel_lineShape {p r : List Char}
    (hshape : lineShape p = lineShape r) :
    ∀ n s, s.length ≤ n → lineShape (replFuel p r n s) = lineShape s := by
  intro n
  induction n with
  | zero =>
    intro s hs
    cases s with
    | nil => simp [replFuel]
    | cons c cs => simp at hs
  | succ n ih =>
    intro s hs
    cases s with
    | nil => simp [replFuel]
    | cons c cs =>
      have hs' : cs.length ≤ n := by simp at hs; omega
      by_cases hcond : (p.isPrefixOf (c :: cs) && !p.isEmpty) = true
      · simp only [replFuel]
        rw [if_pos hcond]
        rw [Bool.and_eq_true] at hcond
        have hp : p.isPrefixOf (c :: cs) = true := hcond.1
        have hpne : p ≠ [] := by
          have := hcond.2
          rwa [Bool.not_eq_true', List.isEmpty_eq_false] at this
        obtain ⟨k, hk⟩ : ∃ k, p.length = k + 1 := by
          cases p with
          | nil => exact absurd rfl hpne
          | cons x xs => exact ⟨xs.length, rfl⟩
        have hdrop : (c :: cs).drop p.length = cs.drop (p.length - 1) := by
          rw [hk, List.drop_succ_cons, Nat.add_sub_cancel]
        have hih := ih (cs.drop (p.length - 1))
          (by rw [List.length_drop]; omega)
        calc lineShape (r ++ replFuel p r n (cs.drop (p.length - 1)))
            = lineShape r ++ lineShape (replFuel p r n (cs.drop (p.length - 1))) :=
              lineShape_append _ _
          _ = lineShape p ++ lineShape (cs.drop (p.length - 1)) := by
              rw [← hshape, hih]
          _ = lineShape (p ++ (c :: cs).drop p.length) := by
              rw [lineShape_append, hdrop]
          _ = lineShape (c :: cs) := by
              rw [← eq_append_drop_of_isPrefixOf hp]
      · simp only [replFuel]
        rw [if_neg hcond]
        have hih := ih cs hs'
        simp only [lineShape, List.map_cons]
        simp only [lineShape] at hih
        rw [hih]

/-- Head character of the first coordinate replacement. -/
theorem repSolOW_head : repSolOW.head? = some 'S' := rfl

/-- Head character of the second coordinate replacement. -/
theorem repSolHW1_head : repSolHW1.head? = some 'S' := rfl

/-- Head character of the third coordinate replacement. -/
theorem repSolHW2_head : repSolHW2.head? = some 'S' := rfl

/-- Head character of the inserted water block: a line break. -/
theorem solBlock_head : solBlock.head? = some '\n' := rfl

/-- The character-by-character water check of the topology patch can
never fire: each loop iteration tests whether a single character begins
with the three-character string `"SOL"`. -/
theorem contains_SOL_always_false (s : List Char) : contains_SOL s = false := by
  rw [contains_SOL, List.any_eq_false]
  intro c _
  have h3 : "SOL".toList = 'S' :: 'O' :: 'L' :: [] := rfl
  rw [h3]
  simp [List.isPrefixOf]

theorem countOcc_pyReplace_zero {p r w : List Char} {rh : Char}
    (hre : r.head? = some rh) (hw : w ≠ [])
    (hns : noStartB w r = true) (hcross : rh ∉ w)
    (s : List Char) (hd : countOcc w s = 0 ∨ w = p) :
    countOcc w (pyReplace s p r) = 0 :=
  countOcc_replFuel_zero hre hw hns hcross s.length s le_rfl hd

set_option maxRecDepth 8000 in
/-- C1: the claim says that for every topology text with a line
beginning with `SOL`, the patcher detects the water entries, skips the
block insertion and renames `HOH` to `SOL`.  The code cannot do this:
its water check iterates over the characters of the text, so
`contains_SOL` is false for every text, and on a sample topology that
does contain a `SOL`-starting line and `HOH` entries the patcher still
inserts the water block and leaves the `HOH` labels untouched. -/
theorem claim_C1_water_detection_fails :
    (∀ s, contains_SOL s = false) ∧
    "SOL".toList.isPrefixOf demoTop = true ∧
    countOcc hohWord demoTop = 2 ∧
    patchTop demoTop = demoPre ++ solBlock ++ demoPost :=
  ⟨contains_SOL_always_false, by decide, by decide, by decide⟩

set_option maxRecDepth 8000 in
/-- C2 counterexample: the topology patch is not idempotent.  On the
text `'[ system ]'` the first application inserts the water block; the
block itself ends with `'[ system ]'` and the water check never fires,
so a second application inserts the block again. -/
theorem claim_C2_cex_patch_not_idempotent :
    patchTop (patchTop cexTop) ≠ patchTop cexTop := by
  have h1 : patchTop cexTop = solBlock := by decide
  have h2 : ((patchTop solBlock).drop 909).take 1 = ['\n'] := by decide
  have h3 : (solBlock.drop 909).take 1 = ['['] := by decide
  rw [h1]
  intro hcontra
  rw [hcontra, h3] at h2
  exact absurd h2 (by decide)

/-- C2 amended: the coordinate-file label substitution is idempotent —
applying the three `HOH`/`SOL` replacements twice produces the same
text as applying them once, for every coordinate text. -/
theorem claim_C2_amended_coordinate_patch_idempotent :
    ∀ s, patchCoord (patchCoord s) = patchCoord s := by
  intro s
  have h1 : countOcc patHohO (pyReplace s patHohO repSolOW) = 0 :=
    countOcc_pyReplace_zero repSolOW_head (by decide) (by decide) (by decide)
      s (Or.inr rfl)
  have h2 : countOcc patHohO
      (pyReplace (pyReplace s patHohO repSolOW) patHohH1 repSolHW1) = 0 :=
    countOcc_pyReplace_zero repSolHW1_head (by decide) (by decide) (by decide)
      _ (Or.inl h1)
  have h3 : countOcc patHohO (patchCoord s) = 0 :=
    countOcc_pyReplace_zero repSolHW2_head (by decide) (by decide) (by decide)
      _ (Or.inl h2)
  have h4 : countOcc patHohH1
      (pyReplace (pyReplace s patHohO repSolOW) patHohH1 repSolHW1) = 0 :=
    countOcc_pyReplace_zero repSolHW1_head (by decide) (by decide) (by decide)
      _ (Or.inr rfl)
  have h5 : countOcc patHohH1 (patchCoord s) = 0 :=
    countOcc_pyReplace_zero repSolHW2_head (by decide) (by decide) (by decide)
      _ (Or.inl h4)
  have h6 : countOcc patHohH2 (patchCoord s) = 0 :=
    countOcc_pyReplace_zero repSolHW2_head (by decide) (by decide) (by decide)
      _ (Or.inr rfl)
  show pyReplace (pyReplace (pyReplace (patchCoord s) patHohO repSolOW)
    patHohH1 repSolHW1) patHohH2 repSolHW2 = patchCoord s
  rw [pyReplace_eq_of_countOcc_zero _ _ _ h3,
    pyReplace_eq_of_countOcc_zero _ _ _ h5,
    pyReplace_eq_of_countOcc_zero _ _ _ h6]

/-- C4: the complex is protein, then ligand, then water exactly when
the water file exists, and the combined structure's atom count is the
sum of the inputs' atom counts. -/
theorem claim_C4_combination_order :
    ∀ (α : Type) (protein ligand water : List α),
      buildComplex true protein ligand water = protein ++ ligand ++ water ∧
      (buildComplex true protein ligand water).length
        = protein.length + ligand.length + water.length ∧
      buildComplex false protein ligand water = protein ++ ligand ∧
      (buildComplex false protein ligand water).length
        = protein.length + ligand.length := by
  intro α protein ligand water
  refine ⟨rfl, ?_, rfl, ?_⟩ <;>
    simp [buildComplex, combineStructures, Nat.add_assoc]

/-- C5 counterexample: the two phases do not iterate over the same
list; the committed parameter-generation phase lists only `thrombin`,
while the solvation phase lists all six systems. -/
theorem claim_C5_cex_phase_lists_differ :
    protein_list_params ≠ protein_list_solv := by
  decide

/-- C5 amended: the solvation phase iterates all six systems of the
manifest, with two ligands per system except `cyclod`, which has three;
the parameter-generation phase uses the same ligand rule but its
committed system list contains only `thrombin`. -/
theorem claim_C5_amended_manifests :
    protein_list_solv = ["thrombin", "cmet", "cyclod", "jnk1", "p38", "brd4"] ∧
    protein_list_params = ["thrombin"] ∧
    protein_list_solv.map (fun p => (ligand_filenames p).length)
      = [2, 2, 3, 2, 2, 2] ∧
    protein_list_params.map (fun p => (ligand_filenames p).length) = [2] := by
  refine ⟨rfl, rfl, ?_, ?_⟩ <;> decide

/-- C6: the solvation driver never inspects exit codes — whatever exit
code each subprocess returns, the driver performs exactly the same
fixed sequence of eight stage invocations. -/
theorem claim_C6_exit_codes_ignored :
    ∀ exec : Stage → Int,
      (runSolvation exec).map Prod.fst = solvationStages ∧
      (runSolvation exec).map (fun st => st.1.tool)
        = ["editconf", "solvate", "grompp", "genion",
           "editconf", "solvate", "grompp", "genion"] := by
  intro exec
  exact ⟨rfl, rfl⟩

/-- C7: for each structure the stages form a strict pipeline — each
stage writes a file the next stage reads — and in every prefix of the
stage list in which `for_genion.tpr` has been produced, the structure's
solvated coordinate file has been produced as well. -/
theorem claim_C7_stage_ordering :
    ((complexStages.zip complexStages.tail).all
      (fun pr => pr.1.outputs.any (fun f => pr.2.args.contains f))) = true ∧
    ((ligandStages.zip ligandStages.tail).all
      (fun pr => pr.1.outputs.any (fun f => pr.2.args.contains f))) = true ∧
    ∀ k, ("for_genion.tpr" ∈ producedBy complexStages k →
            "complex_solvated.gro" ∈ producedBy complexStages k) ∧
         ("for_genion.tpr" ∈ producedBy ligandStages k →
            "ligand_solvated.gro" ∈ producedBy ligandStages k) := by
  refine ⟨by decide, by decide, ?_⟩
  intro k
  match k with
  | 0 => exact ⟨by decide, by decide⟩
  | 1 => exact ⟨by decide, by decide⟩
  | 2 => exact ⟨by decide, by decide⟩
  | 3 => exact ⟨by decide, by decide⟩
  | (m + 4) =>
    constructor
    · intro _
      have he : producedBy complexStages (m + 4) = producedBy complexStages 4 := by
        rw [producedBy, producedBy,
          List.take_of_length_le (by simp [complexStages]),
          List.take_of_length_le (by simp [complexStages])]
      rw [he]
      decide
    · intro _
      have he : producedBy ligandStages (m + 4) = producedBy ligandStages 4 := by
        rw [producedBy, producedBy,
          List.take_of_length_le (by simp [ligandStages]),
          List.take_of_length_le (by simp [ligandStages])]
      rw [he]
      decide

/-- C7 witness: after the third complex stage, `for_genion.tpr` has
been produced, and so has `complex_solvated.gro`. -/
theorem claim_C7_stage_ordering_witness :
    "for_genion.tpr" ∈ producedBy complexStages 3 ∧
    "complex_solvated.gro" ∈ producedBy complexStages 3 :=
  ⟨by decide, (claim_C7_stage_ordering.2.2 3).1 (by decide)⟩

/-- C8: when a substitution pattern does not occur in a text, applying
the substitution is a silent no-op: the text is returned unchanged and
no failure is signalled (the function is total). -/
theorem claim_C8_substitution_mismatch_noop :
    ∀ s p r : List Char, countOcc p s = 0 → pyReplace s p r = s :=
  fun s p r h0 => pyReplace_eq_of_countOcc_zero s p r h0

/-- C8 witness: the first coordinate pattern does not occur in the
sample coordinate text, and substitution leaves the text unchanged. -/
theorem claim_C8_substitution_mismatch_noop_witness :
    countOcc patHohO sampleCoord = 0 ∧
    pyReplace sampleCoord patHohO repSolOW = sampleCoord :=
  ⟨by decide,
   claim_C8_substitution_mismatch_noop sampleCoord patHohO repSolOW (by decide)⟩

/-- C9: the three coordinate substitutions replace ten characters by
ten characters, so the patched coordinate text has the same length and
the same newline profile — hence the same fixed-column alignment — as
the input. -/
theorem claim_C9_alignment_preserved :
    ∀ s, (patchCoord s).length = s.length ∧
      lineShape (patchCoord s) = lineShape s ∧
      patHohO.length = 10 ∧ repSolOW.length = 10 ∧
      patHohH1.length = 10 ∧ repSolHW1.length = 10 ∧
      patHohH2.length = 10 ∧ repSolHW2.length = 10 := by
  intro s
  have e1 : lineShape patHohO = lineShape repSolOW := by decide
  have e2 : lineShape patHohH1 = lineShape repSolHW1 := by decide
  have e3 : lineShape patHohH2 = lineShape repSolHW2 := by decide
  have hsh : lineShape (patchCoord s) = lineShape s := by
    simp only [patchCoord, pyReplace]
    rw [replFuel_lineShape e3 _ _ le_rfl, replFuel_lineShape e2 _ _ le_rfl,
      replFuel_lineShape e1 _ _ le_rfl]
  have hlen : (patchCoord s).length = s.length := by
    have := congrArg List.length hsh
    simpa [lineShape] using this
  exact ⟨hlen, hsh, rfl, rfl, rfl, rfl, rfl, rfl⟩

/- Positional view of `countOcc`: occurrences as start positions. -/

theorem countOcc_eq_countP (w t : List Char) :
    countOcc w t
      = List.countP (fun i => w.isPrefixOf (t.drop i)) (List.range t.length) := by
  induction t with
  | nil => rfl
  | cons c cs ih =>
    rw [countOcc_cons, List.length_cons, List.range_succ_eq_map,
      List.countP_cons, List.countP_map]
    have hcomp : ((fun i => w.isPrefixOf ((c :: cs).drop i)) ∘ Nat.succ)
        = fun i => w.isPrefixOf (cs.drop i) := by
      funext i
      simp [Function.comp, List.drop_succ_cons]
    rw [hcomp, ← ih]
    simp [Nat.add_comm]

theorem countOcc_append (w a b : List Char) :
    countOcc w (a ++ b)
      = List.countP (fun i => w.isPrefixOf (a.drop i ++ b)) (List.range a.length)
        + countOcc w b := by
  induction a with
  | nil => simp
  | cons c a' ih =>
    rw [List.cons_append, countOcc_cons, ih, List.length_cons,
      List.range_succ_eq_map, List.countP_cons, List.countP_map]
    have hcomp : ((fun i => w.isPrefixOf ((c :: a').drop i ++ b)) ∘ Nat.succ)
        = fun i => w.isPrefixOf (a'.drop i ++ b) := by
      funext i
      simp [Function.comp, List.drop_succ_cons]
    rw [hcomp]
    simp only [List.drop_zero, List.cons_append]
    ring

/- Inside a text satisfying `noSpanB`, whether an occurrence of `w`
starts at a position of `b` does not depend on what follows `b`. -/

theorem countP_congr_block {w b : List Char}
    (hspan : noSpanB w b = true) (t : List Char) :
    List.countP (fun i => w.isPrefixOf (b.drop i ++ t)) (List.range b.length)
      = List.countP (fun i => w.isPrefixOf (b.drop i)) (List.range b.length) := by
  apply List.countP_congr
  intro i hi
  rw [List.mem_range] at hi
  by_cases hlen : w.length ≤ (b.drop i).length
  · rw [List.isPrefixOf_iff_prefix, List.isPrefixOf_iff_prefix]
    exact prefix_append_of_le t hlen
  · constructor
    · intro hcon
      exfalso
      rw [List.isPrefixOf_iff_prefix] at hcon
      rcases prefixAppendCases hcon with h1 | h2
      · exact hlen h1.length_le
      · have hklt : b.length - i - 1 < w.length - 1 := by
          rw [List.length_drop] at hlen
          omega
        have hall := List.all_eq_true.mp hspan (b.length - i - 1)
          (List.mem_range.mpr hklt)
        have hidx : b.length - (b.length - i - 1 + 1) = i := by omega
        rw [hidx] at hall
        rw [← List.isPrefixOf_iff_prefix] at h2
        simp [h2] at hall
    · intro hcon
      exfalso
      rw [List.isPrefixOf_iff_prefix] at hcon
      exact hlen hcon.length_le

/-- Prepending a text `rep` that contains exactly one occurrence of `w`
and admits no straddling occurrence adds exactly one occurrence. -/
theorem countOcc_append_one {w rep : List Char} (rest : List Char)
    (hspan : noSpanB w rep = true) (hone : countOcc w rep = 1) :
    countOcc w (rep ++ rest) = 1 + countOcc w rest := by
  rw [countOcc_append, countP_congr_block hspan rest, ← countOcc_eq_countP, hone]

/-- Replacing every occurrence of `w` by a text `rep` that itself
contains exactly one occurrence of `w` preserves the number of
occurrences of `w`. -/
theorem countOcc_replFuel_self {w rep : List Char} {rh : Char}
    (hre : rep.head? = some rh) (hw : w ≠ []) (hcross : rh ∉ w)
    (hspanRep : noSpanB w rep = true) (hone : countOcc w rep = 1)
    (hspanSelf : noSpanB w w = true) (hselfone : countOcc w w = 1) :
    ∀ n s, s.length ≤ n → countOcc w (replFuel w rep n s) = countOcc w s := by
  intro n
  induction n with
  | zero =>
    intro s hs
    cases s with
    | nil => simp [replFuel]
    | cons c cs => simp at hs
  | succ n ih =>
    intro s hs
    cases s with
    | nil => simp [replFuel]
    | cons c cs =>
      have hs' : cs.length ≤ n := by simp at hs; omega
      by_cases hcond : (w.isPrefixOf (c :: cs) && !w.isEmpty) = true
      · simp only [replFuel]
        rw [if_pos hcond]
        rw [Bool.and_eq_true] at hcond
        have hp : w.isPrefixOf (c :: cs) = true := hcond.1
        have hsplit : (c :: cs) = w ++ (c :: cs).drop w.length :=
          eq_append_drop_of_isPrefixOf hp
        obtain ⟨k, hk⟩ : ∃ k, w.length = k + 1 := by
          cases w with
          | nil => exact absurd rfl hw
          | cons x xs => exact ⟨xs.length, rfl⟩
        have hdropeq : (c :: cs).drop w.length = cs.drop (w.length - 1) := by
          rw [hk, List.drop_succ_cons, Nat.add_sub_cancel]
        have hihlen : (cs.drop (w.length - 1)).length ≤ n := by
          rw [List.length_drop]
          omega
        calc countOcc w (rep ++ replFuel w rep n (cs.drop (w.length - 1)))
            = 1 + countOcc w (replFuel w rep n (cs.drop (w.length - 1))) :=
              countOcc_append_one _ hspanRep hone
          _ = 1 + countOcc w (cs.drop (w.length - 1)) := by rw [ih _ hihlen]
          _ = countOcc w (w ++ cs.drop (w.length - 1)) :=
              (countOcc_append_one _ hspanSelf hselfone).symm
          _ = countOcc w (c :: cs) := by rw [← hdropeq, ← hsplit]
      · simp only [replFuel]
        rw [if_neg hcond]
        rw [countOcc_cons, countOcc_cons]
        have hwe : (!w.isEmpty) = true := by
          simp [List.isEmpty_eq_false.mpr hw]
        have hnp : w.isPrefixOf (c :: cs) = false := by
          cases hbo : w.isPrefixOf (c :: cs) with
          | false => rfl
          | true =>
            exact absurd (by rw [Bool.and_eq_true]; exact ⟨hbo, hwe⟩) hcond
        have hnp2 : w.isPrefixOf (c :: replFuel w rep n cs) = false := by
          cases hbo : w.isPrefixOf (c :: replFuel w rep n cs) with
          | false => rfl
          | true =>
            exfalso
            have hwpre := List.isPrefixOf_iff_prefix.mp hbo
            cases w with
            | nil => exact hw rfl
            | cons wh wt =>
              rw [List.cons_prefix_cons] at hwpre
              have hwt : wt <+: cs :=
                prefix_of_replFuel hre n cs wt
                  (fun hmem => hcross (List.mem_cons_of_mem _ hmem)) hs' hwpre.2
              have hh : (wh :: wt).isPrefixOf (c :: cs) = true :=
                List.isPrefixOf_iff_prefix.mpr
                  (List.cons_prefix_cons.mpr ⟨hwpre.1, hwt⟩)
              rw [hh] at hnp
              simp at hnp
        rw [hnp, hnp2, ih cs hs']

/-- A word that ends with `a` occurs at most as often as `a` does: each
occurrence of the word contains an occurrence of `a` at a fixed offset,
and distinct start positions give distinct offsets. -/
theorem countOcc_le_of_suffix {w pre a : List Char} (hwdecomp : w = pre ++ a)
    (ha : a ≠ []) (t : List Char) : countOcc w t ≤ countOcc a t := by
  rw [countOcc_eq_countP, countOcc_eq_countP, List.countP_eq_length_filter,
    List.countP_eq_length_filter]
  set f : Nat → Nat := fun i => i + pre.length with hf
  set L1 := (List.range t.length).filter
    (fun i => w.isPrefixOf (t.drop i)) with hL1
  set L2 := (List.range t.length).filter
    (fun i => a.isPrefixOf (t.drop i)) with hL2
  have hnodup1 : L1.Nodup := (List.nodup_range _).filter _
  have hinj : Function.Injective f := add_left_injective pre.length
  have hmapnodup : (L1.map f).Nodup := List.Nodup.map hinj hnodup1
  have hsub : ∀ x ∈ L1.map f, x ∈ L2 := by
    intro x hx
    rw [List.mem_map] at hx
    obtain ⟨i, hiL1, hix⟩ := hx
    rw [hL1, List.mem_filter, List.mem_range] at hiL1
    obtain ⟨hir, hipre⟩ := hiL1
    have hwpre : w <+: t.drop i := List.isPrefixOf_iff_prefix.mp hipre
    have h1 : w.length ≤ (t.drop i).length := hwpre.length_le
    obtain ⟨z, hz⟩ := hwpre
    have hdd : t.drop (i + pre.length) = a ++ z := by
      have hstep : (t.drop i).drop pre.length = a ++ z := by
        rw [← hz, hwdecomp, List.append_assoc, List.drop_left]
      rwa [List.drop_drop] at hstep
    have hala : a <+: t.drop (i + pre.length) := ⟨z, hdd.symm⟩
    have hlen : i + pre.length < t.length := by
      rw [List.length_drop] at h1
      have h2 : 0 < a.length := List.length_pos.mpr ha
      have h3 : w.length = pre.length + a.length := by
        rw [hwdecomp, List.length_append]
      omega
    rw [hL2, List.mem_filter, List.mem_range, ← hix]
    exact ⟨hlen, List.isPrefixOf_iff_prefix.mpr hala⟩
  calc L1.length = (L1.map f).length := (List.length_map _ _).symm
    _ = (L1.map f).toFinset.card := (List.toFinset_card_of_nodup hmapnodup).symm
    _ ≤ L2.toFinset.card :=
        Finset.card_le_card
          (fun x hx => List.mem_toFinset.mpr (hsub x (List.mem_toFinset.mp hx)))
    _ ≤ L2.length := List.toFinset_card_le _

/- Lower bound: each anchor occurrence in the input yields a block
occurrence in the output of the topology insertion. -/

set_option maxRecDepth 8000 in
theorem countOcc_block_ge :
    ∀ n s, s.length ≤ n →
      countOcc sysAnchor s
        ≤ countOcc solBlock (replFuel sysAnchor solBlock n s) := by
  have hsp : noSpanB sysAnchor sysAnchor = true := by decide
  have hso : countOcc sysAnchor sysAnchor = 1 := by decide
  intro n
  induction n with
  | zero =>
    intro s hs
    cases s with
    | nil => simp [replFuel, countOcc_nil]
    | cons c cs => simp at hs
  | succ n ih =>
    intro s hs
    cases s with
    | nil => simp [replFuel, countOcc_nil]
    | cons c cs =>
      have hs' : cs.length ≤ n := by simp at hs; omega
      by_cases hcond : (sysAnchor.isPrefixOf (c :: cs) && !sysAnchor.isEmpty) = true
      · simp only [replFuel]
        rw [if_pos hcond]
        rw [Bool.and_eq_true] at hcond
        have hp : sysAnchor.isPrefixOf (c :: cs) = true := hcond.1
        have hsplit : (c :: cs) = sysAnchor ++ (c :: cs).drop sysAnchor.length :=
          eq_append_drop_of_isPrefixOf hp
        have hdropeq : (c :: cs).drop sysAnchor.length
            = cs.drop (sysAnchor.length - 1) := by
          rw [show sysAnchor.length = 9 + 1 from rfl, List.drop_succ_cons,
            Nat.add_sub_cancel]
        have hin : countOcc sysAnchor (c :: cs)
            = 1 + countOcc sysAnchor (cs.drop (sysAnchor.length - 1)) := by
          conv_lhs => rw [hsplit, hdropeq]
          exact countOcc_append_one _ hsp hso
        have hihlen : (cs.drop (sysAnchor.length - 1)).length ≤ n := by
          rw [List.length_drop]
          omega
        have hout : 1 + countOcc solBlock
            (replFuel sysAnchor solBlock n (cs.drop (sysAnchor.length - 1)))
            ≤ countOcc solBlock (solBlock ++
              replFuel sysAnchor solBlock n (cs.drop (sysAnchor.length - 1))) := by
          rw [countOcc_append]
          have h0 : 0 < List.countP
              (fun i => solBlock.isPrefixOf (solBlock.drop i ++
                replFuel sysAnchor solBlock n (cs.drop (sysAnchor.length - 1))))
              (List.range solBlock.length) := by
            rw [List.countP_pos_iff]
            refine ⟨0, List.mem_range.mpr ?_, ?_⟩
            · rw [List.length_pos]
              decide
            · simp only [List.drop_zero]
              exact List.isPrefixOf_iff_prefix.mpr (List.prefix_append _ _)
          omega
        calc countOcc sysAnchor (c :: cs)
            = 1 + countOcc sysAnchor (cs.drop (sysAnchor.length - 1)) := hin
          _ ≤ 1 + countOcc solBlock
                (replFuel sysAnchor solBlock n (cs.drop (sysAnchor.length - 1))) := by
              have := ih _ hihlen
              omega
          _ ≤ _ := hout
      · simp only [replFuel]
        rw [if_neg hcond]
        have hnp : sysAnchor.isPrefixOf (c :: cs) = false := by
          cases hbo : sysAnchor.isPrefixOf (c :: cs) with
          | false => rfl
          | true =>
            exact absurd (by rw [Bool.and_eq_true]; exact ⟨hbo, by decide⟩) hcond
        rw [countOcc_cons, hnp]
        simp only [Bool.false_eq_true, if_false, Nat.zero_add]
        calc countOcc sysAnchor cs
            ≤ countOcc solBlock (replFuel sysAnchor solBlock n cs) := ih cs hs'
          _ ≤ countOcc solBlock (c :: replFuel sysAnchor solBlock n cs) :=
              countOcc_tail_le _ _ _

set_option maxRecDepth 8000 in
/-- The patched topology text contains exactly as many copies of the
water block as the input text contains `'[ system ]'` anchors. -/
theorem countOcc_patchTop (s : List Char) :
    countOcc solBlock (patchTop s) = countOcc sysAnchor s := by
  simp only [patchTop, contains_SOL_always_false, Bool.false_eq_true, if_false]
  apply le_antisymm
  · calc countOcc solBlock (pyReplace s sysAnchor solBlock)
        ≤ countOcc sysAnchor (pyReplace s sysAnchor solBlock) :=
          @countOcc_le_of_suffix solBlock solBlockPre sysAnchor rfl (by decide) _
      _ = countOcc sysAnchor s :=
          countOcc_replFuel_self solBlock_head (by decide) (by decide)
            (by decide) (by decide) (by decide) (by decide) s.length s le_rfl
  · exact countOcc_block_ge s.length s le_rfl

set_option maxRecDepth 8000 in
/-- C3: for a topology text with no water entries (no `SOL` label) and
exactly one `'[ system ]'` anchor — the shape the parameter phase
emits for a system with no crystallographic water — the patched text
contains exactly one copy of the inserted water block, and that block
is internally consistent: it is made of a header, three atom lines
declaring `OW`, `HW1` and `HW2`, and a footer ending in the anchor;
each atom line carries its charge field, and the three charges
`-0.834`, `0.417`, `0.417` sum to exactly `0`. -/
theorem claim_C3_single_block_inserted :
    ∀ s, countOcc solWord s = 0 → countOcc sysAnchor s = 1 →
      countOcc solBlock (patchTop s) = 1 ∧
      solBlock = blkHeader ++ atomLineOW ++ atomLineHW1 ++ atomLineHW2 ++
        blkFooter ++ sysAnchor ∧
      countOcc atomLineOW solBlock = 1 ∧
      countOcc atomLineHW1 solBlock = 1 ∧
      countOcc atomLineHW2 solBlock = 1 ∧
      countOcc chargeOWStr atomLineOW = 1 ∧
      countOcc chargeHW1Str atomLineHW1 = 1 ∧
      countOcc chargeHW2Str atomLineHW2 = 1 ∧
      parseDecQ chargeOWStr + parseDecQ chargeHW1Str + parseDecQ chargeHW2Str
        = 0 := by
  intro s h0 h1
  have e1 : parseDecScaled chargeOWStr = (-83400000, 8) := by decide
  have e2 : parseDecScaled chargeHW1Str = (41700000, 8) := by decide
  have e3 : parseDecScaled chargeHW2Str = (41700000, 8) := by decide
  refine ⟨?_, rfl, by decide, by decide, by decide, by decide, by decide,
    by decide, ?_⟩
  · rw [countOcc_patchTop s, h1]
  · simp only [parseDecQ, e1, e2, e3]
    norm_num

/-- C3 witness: a sample topology text without water entries and with
one anchor, on which the patcher inserts exactly one water block. -/
theorem claim_C3_single_block_inserted_witness :
    countOcc solWord sampleTop = 0 ∧ countOcc sysAnchor sampleTop = 1 ∧
    countOcc solBlock (patchTop sampleTop) = 1 :=
  ⟨by decide, by decide,
   (claim_C3_single_block_inserted sampleTop (by decide) (by decide)).1⟩

/-- C10: the block insertion replaces every `'[ system ]'` anchor — the
patched topology text contains exactly as many copies of the water
block as the input contains anchors, and it contains exactly one block
if and only if the input contains exactly one anchor. -/
theorem claim_C10_block_count_equals_anchor_count :
    ∀ s, countOcc solBlock (patchTop s) = countOcc sysAnchor s ∧
      (countOcc solBlock (patchTop s) = 1 ↔ countOcc sysAnchor s = 1) := by
  intro s
  have h := countOcc_patchTop s
  exact ⟨h, by rw [h]⟩

end AbfeBench
